import Mathlib

/-!
Verification development for the taxator-tk placement core
(`src/taxonpredictionmodelsequence.hh`), the utility tokenizer
(`utils.hh`) and the rank-normalization contract exercised by the
taxonomy unit test.

Modelling conventions:
* C++ `float` values (alignment scores, band factors, interpolation
  values) are modelled as exact rationals `ℚ`; float rounding is not
  modelled.
* The taxonomy implementation (`taxonomyinterface.hh`) is not part of
  the provided sources; it is modelled from the spec: a taxon is its
  root path (list of child indices), the root is `[]`,
  `getLCA` is the nearest common ancestor (longest common root-path),
  `isParentOf a b` means `a` is an ancestor of or equal to `b`.
* `int` is modelled as `Int`; where C++ performs unsigned/int
  conversions the wrap is made explicit (`wrap64`, `toInt32`).
  `small_unsigned_int` is 8 bits, `large_unsigned_int` 64 bits.
* The external bit-parallel aligner `-seqan::globalAlignmentScore` is an
  oracle parameter `ed : List Nat → List Nat → Int`; sequence storage is
  an oracle as well.  DNA sequences are `List Nat`.
-/

/-- C++ `std::numeric_limits<int>::max()`. -/
def INTMAX : Int := 2147483647

/-- Modelled from the spec: a taxonomy node is identified with its root
path; the root is `[]`, children extend the path; `root_pathlength` is
the path length. -/
abbrev Taxon := List Nat

/-- Modelled from the spec: `isParentOf(A, B)` holds iff A is an ancestor
of or equal to B, i.e. A's root path is an initial segment of B's. -/
def isParentOf : Taxon → Taxon → Bool
  | [], _ => true
  | _ :: _, [] => false
  | a :: as, b :: bs => a = b && isParentOf as bs

/-- Modelled from the spec: `getLCA(A, B)` is the nearest common
ancestor: the longest common initial segment of the two root paths. -/
def getLCA : Taxon → Taxon → Taxon
  | [], _ => []
  | _ :: _, [] => []
  | a :: as, b :: bs => if a = b then a :: getLCA as bs else []

/-- `root_pathlength` as stored in the C++ `small_unsigned_int` (8-bit)
field. -/
def rootPathlength8 (t : Taxon) : Nat := t.length % 256

/-- Value of the C++ `size_t` expression `len - score` (64-bit wrap). -/
def wrap64 (x : Int) : Int := x.emod (2 ^ 64)

/-- Conversion of an out-of-range value to C++ `int` (two's complement
wrap to 32 bits). -/
def toInt32 (x : Int) : Int := (x + 2 ^ 31).emod (2 ^ 32) - 2 ^ 31

/-- C++ `std::max(len1, len2) - score` evaluated in `size_t`. -/
def sizeTSub (len : Nat) (score : Int) : Int := wrap64 ((len : Int) - score)

/-- Truncation of a rational toward zero, the C++ `float`→`int`
conversion used for `qscore_ex`. -/
def truncToInt (q : ℚ) : Int := q.num.tdiv (q.den : Int)

/-- `AlignmentRecord` (the fields read by the RPA model).  `filtered` is
the mutable mask flag. -/
structure AlignmentRecord where
  queryStart : Nat
  queryStop : Nat
  referenceIdentifier : Nat
  referenceStart : Nat
  referenceStop : Nat
  score : ℚ
  identities : Nat
  alignmentLength : Nat
  referenceNode : Taxon
  filtered : Bool
deriving Inhabited, DecidableEq, Repr

/-- `PredictionRecord` output fields set by `RPAPredictionModel::predict`
(the diagnostic `signalStrength` is constant in the source and not
modelled). -/
structure PredictionRecord where
  qrstart : Nat
  qrstop : Nat
  lowerNode : Taxon
  upperNode : Taxon
  bestReferenceTaxon : Taxon
  interpolationValue : ℚ
  anchorsSupport : Nat
deriving Inhabited, DecidableEq, Repr

/-- Result of one placement: `setUnclassified` (external) or a populated
prediction record. -/
inductive PredictResult where
  | unclassified : PredictResult
  | classified : PredictionRecord → PredictResult
deriving DecidableEq, Repr

/-- `predict`'s observable outcome: the emitted result plus the
per-pass alignment counters (`pass_0_counter` …) and the number of
sequence fetches. -/
structure PredictOutput where
  result : PredictResult
  fetches : Nat
  pass0Count : Nat
  pass1Count : Nat
  pass2Count : Nat
  pass1Processed : List (List Nat)
deriving DecidableEq, Repr

/-- `qmaxscore`: maximum score over unfiltered records, accumulated from
`0.0` exactly as in the source. -/
def qmaxscoreOf (rs : List AlignmentRecord) : ℚ :=
  rs.foldl (fun m r => if r.filtered then m else max m r.score) 0

/-- The screening loop: masks every unfiltered record with
`score < qmaxscore * exclude_alignments_factor`. -/
def screenRecords (ex : ℚ) (rs : List AlignmentRecord) : List AlignmentRecord :=
  rs.map (fun r =>
    if r.filtered = false ∧ r.score < qmaxscoreOf rs * ex then
      { r with filtered := true } else r)

/-- The unfiltered records, in recordset order (`records_ordered`). -/
def unfilteredList (rs : List AlignmentRecord) : List AlignmentRecord :=
  rs.filter (fun r => !r.filtered)

/-- `n`, the number of unmasked records. -/
def countUnfiltered (rs : List AlignmentRecord) : Nat :=
  (unfilteredList rs).length

/-- Reference-segment retrieval for one record: extends the aligned
region by the query overhangs, using the reverse complement when the
reference coordinates are descending. -/
def fetchRef (db dbRC : Nat → Nat → Nat → List Nat) (qrstart qrstop : Nat)
    (r : AlignmentRecord) : List Nat :=
  let left_ext := r.queryStart - qrstart
  let right_ext := qrstop - r.queryStop
  if r.referenceStart ≤ r.referenceStop then
    let start := if left_ext < r.referenceStart then r.referenceStart - left_ext else 1
    let stop := r.referenceStop + right_ext
    db r.referenceIdentifier start stop
  else
    let start := if right_ext < r.referenceStop then r.referenceStop - right_ext else 1
    let stop := r.referenceStart + left_ext
    dbRC r.referenceIdentifier start stop

/-! ### BandFactor (helper class) -/

/-- Insertion step for `BandFactor::sort` (comparator on the score
component; `std::sort` leaves tie order unspecified, insertion sort is
the deterministic choice). -/
def insertByScore (p : Int × Taxon) : List (Int × Taxon) → List (Int × Taxon)
  | [] => [p]
  | q :: rest => if p.1 < q.1 then p :: q :: rest else q :: insertByScore p rest

/-- Sort the non-anchor entries by ascending score. -/
def sortByScore : List (Int × Taxon) → List (Int × Taxon)
  | [] => []
  | p :: rest => insertByScore p (sortByScore rest)

/-- Lookup in `worstscore_per_rank` (`std::map<small_unsigned_int,int>`). -/
def worstLookup (m : List (Nat × Int)) (r : Nat) : Option Int :=
  (m.find? (fun p => p.1 = r)).map (fun p => p.2)

/-- Assignment `worstscore_per_rank[rank] = score`. -/
def worstInsert (m : List (Nat × Int)) (r : Nat) (s : Int) : List (Nat × Int) :=
  (r, s) :: m.filter (fun p => p.1 ≠ r)

/-- The disorder branch of `BandFactor::setBandFactor`: for each rank
`r' = rank-1, …, 0` with a recorded nonzero score `s'`, raise the band
factor to `score / s'`. -/
def disorderFold (m : List (Nat × Int)) (score : Int) (rank : Nat) (bf : ℚ) : ℚ :=
  (List.range rank).reverse.foldl (fun b r =>
    match worstLookup m r with
    | some refscore => if refscore ≠ 0 then max b ((score : ℚ) / (refscore : ℚ)) else b
    | none => b) bf

/-- The main walk of `BandFactor::setBandFactor` over the sorted
entries. -/
def bandWalk (anchor : Taxon) : List (Int × Taxon) → List (Nat × Int) → Nat → ℚ → ℚ
  | [], _, _, bf => bf
  | (score, node) :: rest, m, last, bf =>
    let rank := rootPathlength8 (getLCA node anchor)
    if rank = last then bandWalk anchor rest m last bf
    else if rank < last then bandWalk anchor rest (worstInsert m rank score) rank bf
    else bandWalk anchor rest m last (disorderFold m score rank bf)

/-- `BandFactor::getFactor`: sort all entries except the first by
ascending score, walk them, clamp to `max_bandfactor = INT_MAX`.
Calling it on empty data is undefined in the source (it would read
`data_[0]`); the model returns the `-1` sentinel there. -/
def getFactor : List (Int × Taxon) → ℚ
  | [] => -1
  | (score, anchor) :: rest =>
    let bf := bandWalk anchor (sortByScore rest)
      [(rootPathlength8 anchor, score)] (rootPathlength8 anchor) 1
    min bf ((INTMAX : Int) : ℚ)

/-! ### RPA pass 0 (best reference re-evaluation) -/

/-- Inputs shared by the passes: ordered unfiltered records, their
fetched reference segments, the query segment, the aligner oracle, the
query range length and the pass-0 re-evaluation threshold. -/
structure RPACtx where
  ro : List AlignmentRecord
  rr : List (List Nat)
  qrseq : List Nat
  ed : List Nat → List Nat → Int
  qrlength : Nat
  threshold : ℚ

/-- Ordered insertion into a `std::set<uint>` kept as a sorted
duplicate-free list. -/
def sortedInsert (x : Nat) : List Nat → List Nat
  | [] => [x]
  | y :: ys => if x < y then x :: y :: ys else if x = y then y :: ys else y :: sortedInsert x ys

/-- `std::set::erase(i)` on the sorted-list representation. -/
def eraseElem (x : Nat) (l : List Nat) : List Nat := l.filter (fun y => y ≠ x)

/-- State of the pass-0 loop. -/
structure Pass0State where
  qgroup : List Nat
  qscores : List Int
  rmatches : List Nat
  index_best : Nat
  anchors_support : Nat
  lca_allnodes : Taxon
  counter : Nat
deriving Repr

/-- One iteration of the pass-0 loop at index `i` (which equals the
current length of the score arrays). -/
def pass0step (C : RPACtx) (st : Pass0State) (i : Nat) : Pass0State :=
  let r := C.ro.getD i default
  let (qg, score, m, cnt) :=
    if r.alignmentLength = C.qrlength ∧ r.identities = C.qrlength then
      (sortedInsert i st.qgroup, (0 : Int), r.identities, st.counter)
    else if C.threshold ≤ r.score then
      let s := C.ed (C.rr.getD i []) C.qrseq
      let mm := max (sizeTSub (max (C.rr.getD i []).length C.qrseq.length) s).toNat r.identities
      (sortedInsert i st.qgroup, s, mm, st.counter + 1)
    else
      (st.qgroup, INTMAX, 0, st.counter)
  let qscores := st.qscores ++ [score]
  let rmatches := st.rmatches ++ [m]
  let ib :=
    if score < qscores.getD st.index_best 0 ∨
        (score = qscores.getD st.index_best 0 ∧ rmatches.getD st.index_best 0 < m) then i
    else st.index_best
  { qgroup := qg
    qscores := qscores
    rmatches := rmatches
    index_best := ib
    anchors_support := max st.anchors_support m
    lca_allnodes := getLCA st.lca_allnodes r.referenceNode
    counter := cnt }

/-- Initial pass-0 state (`lca_allnodes` is seeded with the first
record's reference node). -/
def pass0Init (ro : List AlignmentRecord) : Pass0State :=
  ⟨[], [], [], 0, 0, (ro.headD default).referenceNode, 0⟩

/-- Pass 0 after processing indices `0, …, k-1`. -/
def p0At (C : RPACtx) (k : Nat) : Pass0State :=
  (List.range k).foldl (pass0step C) (pass0Init C.ro)

/-- The whole pass-0 loop. -/
def pass0All (C : RPACtx) : Pass0State := p0At C C.ro.length

/-- The retention loop after pass 0: keep only the `qgroup` members
whose (score, rmatches) pair equals the best one, folding `rtax` over the
retained reference nodes. -/
def pass0retention (C : RPACtx) (st : Pass0State) : List Nat × Taxon :=
  let bs := st.qscores.getD st.index_best 0
  let bm := st.rmatches.getD st.index_best 0
  st.qgroup.foldl (fun acc i =>
    if st.qscores.getD i 0 ≠ bs ∨ st.rmatches.getD i 0 ≠ bm then acc
    else (acc.1 ++ [i], getLCA acc.2 ((C.ro.getD i default).referenceNode)))
    ([], (C.ro.getD st.index_best default).referenceNode)

/-! ### RPA pass 1 (best reference anchor alignments) -/

/-- State of one anchor's inner loop in pass 1.  `processed`, `luCount`
and `ieCount` are observers recording which indices were handled and how
they were classified; they influence nothing. -/
structure Pass1Inner where
  lnode : Taxon
  lscore : Int
  uscore : Int
  qgroup : List Nat
  qscores : List Int
  rmatches : List Nat
  og : List (Nat × Int)
  bf : List (Int × Taxon)
  counter : Nat
  processed : List Nat
  luCount : Nat
  ieCount : Nat

/-- Body of the pass-1 inner loop for record index `i`: compute or reuse
the score against the anchor, apply the triangle update, feed the
band-factor accumulator and classify the record. -/
def pass1body (C : RPACtx) (anchor : Nat) (qscore : Int) (st : Pass1Inner) (i : Nat) :
    Pass1Inner :=
  let cnode := (C.ro.getD i default).referenceNode
  let (score, qscores, rmatches, cnt) :=
    if i = anchor then ((0 : Int), st.qscores, st.rmatches, st.counter)
    else if st.qscores.getD i 0 = 0 ∧ st.qscores.getD anchor 0 = 0 then
      (st.qscores.getD i 0, st.qscores, st.rmatches, st.counter)
    else
      let sc := C.ed (C.rr.getD i []) (C.rr.getD anchor [])
      let m := toInt32 (sizeTSub (max (C.rr.getD i []).length (C.rr.getD anchor []).length) sc)
      if st.qscores.getD anchor 0 = 0 ∧ st.rmatches.getD i 0 ≠ 0 then
        (sc, st.qscores.set i sc, st.rmatches.set i (wrap64 m).toNat, st.counter + 1)
      else (sc, st.qscores, st.rmatches, st.counter + 1)
  let bf := st.bf ++ [(score, cnode)]
  if score = 0 then
    { st with
      qgroup := eraseElem i st.qgroup
      qscores := qscores
      rmatches := rmatches
      counter := cnt
      bf := bf
      processed := st.processed ++ [i]
      ieCount := st.ieCount + 1 }
  else if score ≤ qscore then
    { st with
      lnode := getLCA st.lnode cnode
      lscore := if st.lscore < score then score else st.lscore
      qscores := qscores
      rmatches := rmatches
      counter := cnt
      bf := bf
      processed := st.processed ++ [i]
      luCount := st.luCount + 1 }
  else
    { st with
      uscore := if score < st.uscore then score else st.uscore
      og := st.og ++ [(i, score)]
      qscores := qscores
      rmatches := rmatches
      counter := cnt
      bf := bf
      processed := st.processed ++ [i] }

/-- The pass-1 inner loop
`for(uint i = n; lnode != root && i-- > 0;)`: counts `i` down and stops
early as soon as the running lower node reaches the root. -/
def pass1innerLoop (C : RPACtx) (anchor : Nat) (qscore : Int) :
    Pass1Inner → Nat → Pass1Inner
  | st, 0 => st
  | st, i + 1 =>
    if st.lnode = [] then st
    else pass1innerLoop C anchor qscore (pass1body C anchor qscore st i) i

/-- The `min_upper_score` filtering walk over `outgroup_tmp`
(erase-as-you-go list iteration); returns the surviving entries and the
final `min_upper_score`. -/
def minUpperLoop (qscore_ex : Int) : List (Nat × Int) → Int → List (Nat × Int) × Int
  | [], m => ([], m)
  | (i, s) :: rest, m =>
    if qscore_ex < s then
      if m < s then minUpperLoop qscore_ex rest m
      else
        let m1 := if s < m then s else m
        let (k, mf) := minUpperLoop qscore_ex rest m1
        ((i, s) :: k, mf)
    else
      let m1 := if qscore_ex < m then s else max m s
      let (k, mf) := minUpperLoop qscore_ex rest m1
      ((i, s) :: k, mf)

/-- The second walk over the surviving `outgroup_tmp` entries: extend
the upper node by LCA and curate the minimal outgroup set.  A `none`
upper node is the C++ `NULL` pointer; `getLCA` on it is undefined in the
source and kept as `none` here. -/
def survivorLoop (C : RPACtx) (rtax : Taxon) (minUpper : Int) :
    List (Nat × Int) → Option Taxon → List Nat → Nat → Option Taxon × List Nat × Nat
  | [], u, og, dmin => (u, og, dmin)
  | (i, s) :: rest, u, og, dmin =>
    if minUpper < s then survivorLoop C rtax minUpper rest u og dmin
    else
      let cnode := (C.ro.getD i default).referenceNode
      let u1 : Option Taxon := match u with
        | none => none
        | some t => some (getLCA cnode t)
      let d := rootPathlength8 (getLCA cnode rtax)
      if dmin < d then survivorLoop C rtax minUpper rest u1 og dmin
      else if d < dmin then survivorLoop C rtax minUpper rest u1 (sortedInsert i []) d
      else survivorLoop C rtax minUpper rest u1 (sortedInsert i og) dmin

/-- State of the pass-1 outer (do-while) loop. -/
structure Pass1State where
  qgroup : List Nat
  qscores : List Int
  rmatches : List Nat
  ivalG : ℚ
  lnodeG : Taxon
  unodeG : Taxon
  outgroup : List Nat
  bfmax : ℚ
  dmin : Nat
  counter : Nat
  plog : List (List Nat)

/-- The anchor's upper node after the "adjust" step: the C++ `NULL`
upper node becomes the root. -/
def anchorUnode : Option Taxon → Taxon
  | none => []
  | some u => u

/-- The anchor's interpolation value: `1` when no upper node was found
(`unode == NULL`), the linear interpolation
`(qscore - lscore) / (uscore - lscore)` when the upper node is proper
and `lscore < qscore`, and `0` otherwise. -/
def anchorIval (lnode : Taxon) (lscore uscore qscore : Int) : Option Taxon → ℚ
  | none => 1
  | some u =>
    if u ≠ lnode ∧ lscore < qscore then
      ((qscore - lscore : Int) : ℚ) / ((uscore - lscore : Int) : ℚ)
    else 0

/-- One anchor iteration of pass 1: pop the smallest `qgroup` member,
run the inner loop, compute the band factor and `min_upper_score`,
build the anchor's upper node, interpolation value and outgroup
contribution, and merge into the global state. -/
def pass1anchor (C : RPACtx) (rtax : Taxon) (st : Pass1State) : Pass1State :=
  match st.qgroup with
  | [] => st
  | anchor :: rest =>
    let qscore := st.qscores.getD anchor 0
    let rnode := (C.ro.getD anchor default).referenceNode
    let inn0 : Pass1Inner :=
      ⟨rtax, 0, INTMAX, rest, st.qscores, st.rmatches, [], [(0, rnode)], st.counter, [], 0, 0⟩
    let inn := pass1innerLoop C anchor qscore inn0 C.ro.length
    let bandfactor := getFactor inn.bf
    let qscore_ex := truncToInt ((qscore : ℚ) * bandfactor)
    let mu := minUpperLoop qscore_ex inn.og INTMAX
    let unode0 : Option Taxon := if mu.2 ≠ INTMAX then some inn.lnode else none
    let sv := survivorLoop C rtax mu.2 mu.1 unode0 st.outgroup st.dmin
    ⟨inn.qgroup, inn.qscores, inn.rmatches,
     max st.ivalG (anchorIval inn.lnode inn.lscore inn.uscore qscore sv.1),
     getLCA st.lnodeG inn.lnode, getLCA st.unodeG (anchorUnode sv.1), sv.2.1,
     max st.bfmax bandfactor, sv.2.2, inn.counter, st.plog ++ [inn.processed]⟩

/-- The pass-1 do-while loop, fuelled by the initial `qgroup` size (each
iteration pops at least the anchor, so the fuel never runs out before
the loop condition fails). -/
def pass1loopF (C : RPACtx) (rtax : Taxon) : Nat → Pass1State → Pass1State
  | 0, st => st
  | f + 1, st =>
    let st1 := pass1anchor C rtax st
    if st1.qgroup ≠ [] ∧ st1.lnodeG ≠ [] then pass1loopF C rtax f st1 else st1

/-! ### RPA pass 2 (stable upper node estimation) -/

/-- State of the pass-2 loop. -/
structure Pass2State where
  outgroup : List Nat
  qscores : List Int
  rmatches : List Nat
  unodeG : Taxon
  bfmax : ℚ
  counter : Nat

/-- The pass-2 inner loop over all record indices `0, …, n-1`: skip
alignment for nodes already below the global upper node, store triangle
scores (rmatches are deliberately not updated here), and extend the upper
node for scores within the widened band. -/
def pass2innerStep (C : RPACtx) (anchor : Nat) (qscore_ex : Int) (s : Pass2State)
    (i : Nat) : Pass2State :=
  let cnode := (C.ro.getD i default).referenceNode
  let (score, qscores, cnt) :=
    if i = anchor then ((0 : Int), s.qscores, s.counter)
    else if isParentOf s.unodeG cnode || cnode = s.unodeG then (INTMAX, s.qscores, s.counter)
    else
      let sc := C.ed (C.rr.getD i []) (C.rr.getD anchor [])
      (sc, s.qscores.set i sc, s.counter + 1)
  let og := if score = 0 then eraseElem i s.outgroup else s.outgroup
  let ug := if score ≤ qscore_ex then getLCA s.unodeG cnode else s.unodeG
  { s with
    outgroup := og
    qscores := qscores
    unodeG := ug
    counter := cnt }

def pass2inner (C : RPACtx) (anchor : Nat) (qscore_ex : Int) (st : Pass2State) : Pass2State :=
  (List.range C.ro.length).foldl (pass2innerStep C anchor qscore_ex) st

/-- One anchor iteration of pass 2: pop the smallest outgroup member;
skip cheaply when the upper node already equals the LCA of all nodes;
otherwise re-align the anchor against the query if needed and run the
inner loop with the band widened by `bandfactor_max`. -/
def pass2anchor (C : RPACtx) (lcaAll : Taxon) (st : Pass2State) : Pass2State :=
  match st.outgroup with
  | [] => st
  | anchor :: rest =>
    if st.unodeG = lcaAll then { st with outgroup := rest }
    else
      let (qscores1, matches1, cnt1) :=
        if st.rmatches.getD anchor 0 = 0 then
          let sc := C.ed (C.rr.getD anchor []) C.qrseq
          let m := toInt32 (sizeTSub (max (C.rr.getD anchor []).length C.qrseq.length) sc)
          (st.qscores.set anchor sc, st.rmatches.set anchor (wrap64 m).toNat, st.counter + 1)
        else (st.qscores, st.rmatches, st.counter)
      let qscore := qscores1.getD anchor 0
      let qscore_ex := truncToInt ((qscore : ℚ) * st.bfmax)
      pass2inner C anchor qscore_ex
        { st with outgroup := rest, qscores := qscores1, rmatches := matches1, counter := cnt1 }

/-- The pass-2 while loop, fuelled by the outgroup size. -/
def pass2loopF (C : RPACtx) (lcaAll : Taxon) : Nat → Pass2State → Pass2State
  | 0, st => st
  | f + 1, st =>
    if st.outgroup = [] then st
    else pass2loopF C lcaAll f (pass2anchor C lcaAll st)

/-! ### predict -/

/-- `qrstart = min queryStart` over the unfiltered records. -/
def multiQrstart (r0 r1 : AlignmentRecord) (rest : List AlignmentRecord) : Nat :=
  (r1 :: rest).foldl (fun m x => min m x.queryStart) r0.queryStart

/-- `qrstop = max queryStop` over the unfiltered records. -/
def multiQrstop (r0 r1 : AlignmentRecord) (rest : List AlignmentRecord) : Nat :=
  (r1 :: rest).foldl (fun m x => max m x.queryStop) r0.queryStop

/-- The pass context on the `n ≥ 2` path: ordered records, fetched
query and reference segments, aligner, query range length and the
pass-0 threshold `reeval_bandwidth_factor * qmaxscore`. -/
def multiC (qseq : Nat → Nat → List Nat) (db dbRC : Nat → Nat → Nat → List Nat)
    (ed : List Nat → List Nat → Int) (rb qmaxscore : ℚ)
    (r0 r1 : AlignmentRecord) (rest : List AlignmentRecord) : RPACtx :=
  let roAll := r0 :: r1 :: rest
  let qrstart := multiQrstart r0 r1 rest
  let qrstop := multiQrstop r0 r1 rest
  ⟨roAll, roAll.map (fetchRef db dbRC qrstart qrstop), qseq qrstart qrstop, ed,
   qrstop - qrstart + 1, (1 - rb) * qmaxscore⟩

/-- The initial pass-1 state and the whole pass-1 loop. -/
def multiSt1 (C : RPACtx) (ret : List Nat × Taxon) (p0 : Pass0State) : Pass1State :=
  pass1loopF C ret.2 ret.1.length
    ⟨ret.1, p0.qscores, p0.rmatches, 0, ret.2, ret.2, [], 1, 255, 0, []⟩

/-- The initial pass-2 state and the whole pass-2 loop. -/
def multiSt2 (C : RPACtx) (lcaAll : Taxon) (st1 : Pass1State) : Pass2State :=
  pass2loopF C lcaAll st1.outgroup.length
    ⟨st1.outgroup, st1.qscores, st1.rmatches, st1.unodeG, st1.bfmax, 0⟩

/-- `RPAPredictionModel::predict` after the screening step, as a
function of the ordered unfiltered records.  The three branches are
`n == 0` (unclassified), `n == 1` (no alignment, answer from the single
record) and `n ≥ 2` (range collection, sequence fetches and the three
passes). -/
def predictCore (qseq : Nat → Nat → List Nat) (db dbRC : Nat → Nat → Nat → List Nat)
    (ed : List Nat → List Nat → Int) (rb qmaxscore : ℚ)
    (ro : List AlignmentRecord) : PredictOutput :=
  match ro with
  | [] => ⟨PredictResult.unclassified, 0, 0, 0, 0, []⟩
  | [r] =>
    ⟨PredictResult.classified
      ⟨r.queryStart, r.queryStop, r.referenceNode, [], r.referenceNode, 1, r.identities⟩,
     0, 0, 0, 0, []⟩
  | r0 :: r1 :: rest =>
    let C := multiC qseq db dbRC ed rb qmaxscore r0 r1 rest
    let p0 := pass0All C
    let ret := pass0retention C p0
    let st1 := multiSt1 C ret p0
    let st2 := multiSt2 C p0.lca_allnodes st1
    let ivalF := if st2.unodeG = st1.lnodeG then (1 : ℚ) else st1.ivalG
    ⟨PredictResult.classified
      ⟨multiQrstart r0 r1 rest, multiQrstop r0 r1 rest, st1.lnodeG, st2.unodeG,
       ret.2, ivalF, p0.anchors_support⟩,
     (r0 :: r1 :: rest).length + 1, p0.counter, st1.counter, st2.counter, st1.plog⟩

/-- `RPAPredictionModel::predict`: screen the recordset by
`qmaxscore * exclude_alignments_factor`, then place.  `rb` is
`reeval_bandwidth` (the model stores `1 - rb` as in the constructor). -/
def predict (qseq : Nat → Nat → List Nat) (db dbRC : Nat → Nat → Nat → List Nat)
    (ed : List Nat → List Nat → Int) (ex rb : ℚ)
    (rs : List AlignmentRecord) : PredictOutput :=
  predictCore qseq db dbRC ed rb (qmaxscoreOf rs) (unfilteredList (screenRecords ex rs))

/-! ### Rank normalization (C3 of the spec)

`deleteUnmarkedNodes` and `setRankDistances` live in the taxonomy
implementation, which is not among the provided sources; both are
modelled from the spec over the root-path taxonomy representation. -/

/-- The default marked ranks in canonical order. -/
def defaultRanks : List String :=
  ["superkingdom", "phylum", "class", "order", "family", "genus", "species"]

/-- Canonical depth index of a rank name (`superkingdom` = 1 …
`species` = 7). -/
def canonicalIndex : String → Option Nat
  | "superkingdom" => some 1
  | "phylum" => some 2
  | "class" => some 3
  | "order" => some 4
  | "family" => some 5
  | "genus" => some 6
  | "species" => some 7
  | _ => none

/-- A taxonomy with rank labels: the set of nodes (root paths) plus the
rank of each node's annotation, when present. -/
structure RankedTaxonomy where
  nodes : List Taxon
  rankOf : Taxon → Option String

/-- Modelled from the spec: `deleteUnmarkedNodes` removes every node
whose rank is not in the marked list (re-parenting children to the
surviving ancestor); the root is never deleted.  Ranks are not
changed. -/
def deleteUnmarkedNodes (marked : List String) (T : RankedTaxonomy) : RankedTaxonomy :=
  { nodes := T.nodes.filter
      (fun t => t.isEmpty ||
        (match T.rankOf t with
         | some r => marked.contains r
         | none => false))
    rankOf := T.rankOf }

/-- Helper for `normalizedDepth`, structural on the reversed root
path. -/
def ndGo (T : RankedTaxonomy) : List Nat → Nat
  | [] =>
    match (T.rankOf []).bind canonicalIndex with
    | some k => k
    | none => 0
  | x :: rest =>
    match (T.rankOf ((x :: rest).reverse)).bind canonicalIndex with
    | some k => k
    | none => ndGo T rest + 1

/-- Modelled from the spec: `setRankDistances` sets `root_pathlength`
to the rank's canonical index for every remaining node whose rank is
canonical, and to the parent's depth plus one otherwise. -/
def normalizedDepth (T : RankedTaxonomy) (t : Taxon) : Nat := ndGo T t.reverse

/-! ### tokenizeSingleCharDelim (utils.hh) -/

/-- `std::string::find_first_of` scan starting at absolute index
`idx`. -/
def ffoAux (delims : List Char) : List Char → Nat → Option Nat
  | [], _ => none
  | c :: rest, idx => if delims.contains c then some idx else ffoAux delims rest (idx + 1)

/-- `str.find_first_of(delimiters, lastpos)`; `none` is `npos`. -/
def findFirstOf (delims s : List Char) (fromPos : Nat) : Option Nat :=
  ffoAux delims (s.drop fromPos) fromPos

/-- The token `string(str.data() + lastpos, pos - lastpos)`. -/
def subtok (s : List Char) (lastpos pos : Nat) : List Char :=
  (s.drop lastpos).take (pos - lastpos)

/-- The while loop of `tokenizeSingleCharDelim`; returns the pushed
tokens and the final `lastpos`.  The fuel `s.length + 1` given by the
wrapper dominates the iteration count because `lastpos` strictly
increases while it stays below the string length. -/
def tokenizeLoop (s delims : List Char) (trimempty : Bool) :
    Nat → Nat → Nat → List (List Char) × Nat
  | 0, _, lastpos => ([], lastpos)
  | _ + 1, 0, lastpos => ([], lastpos)
  | fuel + 1, fieldnum + 1, lastpos =>
    if lastpos < s.length then
      match findFirstOf delims s lastpos with
      | none =>
        if s.length ≠ lastpos ∨ trimempty = false then
          ([subtok s lastpos s.length], s.length)
        else ([], s.length)
      | some pos =>
        if pos ≠ lastpos ∨ trimempty = false then
          let (rest, fin) := tokenizeLoop s delims trimempty fuel fieldnum (pos + 1)
          (subtok s lastpos pos :: rest, fin)
        else
          let (rest, fin) := tokenizeLoop s delims trimempty fuel (fieldnum + 1) (pos + 1)
          (rest, fin)
    else ([], lastpos)

/-- `tokenizeSingleCharDelim` from `utils.hh`: splits `s` on single
characters from `delims` into at most `fieldnum` fields (`0` means the
string length), then unconditionally appends the trailing remainder. -/
def tokenizeSingleCharDelim (s delims : List Char) (fieldnum : Nat) (trimempty : Bool) :
    List (List Char) :=
  let fn := if fieldnum = 0 then s.length else fieldnum
  let (toks, last) := tokenizeLoop s delims trimempty (s.length + 1) fn 0
  toks ++ [s.drop last]

/-! ### Concrete fixtures used by the per-claim witnesses -/

/-- A sequence-storage oracle returning empty sequences. -/
def zeroQSeq : Nat → Nat → List Nat := fun _ _ => []

/-- A reference-storage oracle returning empty sequences. -/
def zeroDb : Nat → Nat → Nat → List Nat := fun _ _ _ => []

/-- An aligner oracle with all scores zero. -/
def zeroEd : List Nat → List Nat → Int := fun _ _ => 0

/-- A record aligned to taxon `[0]`, an exact match over query range
`[1, 4]`. -/
def rec0 : AlignmentRecord := ⟨1, 4, 0, 1, 4, 10, 4, 4, [0], false⟩

/-- The same alignment but to taxon `[1]`, in a different root
subtree. -/
def rec1 : AlignmentRecord := { rec0 with referenceNode := [1] }

/-! ## Theorems -/

/-! ### Ancestor order and LCA lemmas -/

theorem isParentOf_nil_left (t : Taxon) : isParentOf [] t = true := rfl

theorem isParentOf_refl (t : Taxon) : isParentOf t t = true := by
  induction t with
  | nil => rfl
  | cons x xs ih => simp [isParentOf, ih]

theorem isParentOf_trans (a : Taxon) :
    ∀ b c, isParentOf a b = true → isParentOf b c = true → isParentOf a c = true := by
  induction a with
  | nil => intro b c _ _; exact isParentOf_nil_left c
  | cons x xs ih =>
    intro b c h1 h2
    cases b with
    | nil => simp [isParentOf] at h1
    | cons y ys =>
      cases c with
      | nil => simp [isParentOf] at h2
      | cons z zs =>
        simp only [isParentOf, Bool.and_eq_true, decide_eq_true_eq] at h1 h2 ⊢
        exact ⟨h1.1.trans h2.1, ih ys zs h1.2 h2.2⟩

theorem getLCA_isParentOf_left (a : Taxon) : ∀ b, isParentOf (getLCA a b) a = true := by
  induction a with
  | nil => intro b; rfl
  | cons x xs ih =>
    intro b
    cases b with
    | nil => rfl
    | cons y ys =>
      by_cases h : x = y
      · simp [getLCA, h, isParentOf, ih]
      · simp [getLCA, h, isParentOf_nil_left]

theorem getLCA_isParentOf_right (a : Taxon) : ∀ b, isParentOf (getLCA a b) b = true := by
  induction a with
  | nil => intro b; exact isParentOf_nil_left b
  | cons x xs ih =>
    intro b
    cases b with
    | nil => rfl
    | cons y ys =>
      by_cases h : x = y
      · simp [getLCA, h, isParentOf, ih]
      · simp [getLCA, h, isParentOf_nil_left]

theorem isParentOf_getLCA (c : Taxon) :
    ∀ a b, isParentOf c a = true → isParentOf c b = true →
      isParentOf c (getLCA a b) = true := by
  induction c with
  | nil => intro a b _ _; exact isParentOf_nil_left _
  | cons z zs ih =>
    intro a b h1 h2
    cases a with
    | nil => simp [isParentOf] at h1
    | cons x xs =>
      cases b with
      | nil => simp [isParentOf] at h2
      | cons y ys =>
        simp only [isParentOf, Bool.and_eq_true, decide_eq_true_eq] at h1 h2
        have hxy : x = y := h1.1.symm.trans h2.1
        simp only [getLCA, if_pos hxy]
        simp only [isParentOf, Bool.and_eq_true, decide_eq_true_eq]
        exact ⟨h1.1, ih xs ys h1.2 h2.2⟩

/-! ### Band factor bounds -/

theorem disorderFold_ge (m : List (Nat × Int)) (score : Int) (rank : Nat) (bf : ℚ) :
    bf ≤ disorderFold m score rank bf := by
  unfold disorderFold
  generalize (List.range rank).reverse = l
  induction l generalizing bf with
  | nil => simp
  | cons r rest ih =>
    simp only [List.foldl_cons]
    refine le_trans ?_ (ih _)
    cases worstLookup m r with
    | none => simp
    | some refscore =>
      by_cases h : refscore ≠ 0
      · simp [h, le_max_left]
      · simp [h]

theorem bandWalk_ge (anchor : Taxon) (l : List (Int × Taxon)) :
    ∀ m last (bf : ℚ), bf ≤ bandWalk anchor l m last bf := by
  induction l with
  | nil => intro m last bf; simp [bandWalk]
  | cons p rest ih =>
    intro m last bf
    obtain ⟨score, node⟩ := p
    simp only [bandWalk]
    by_cases h1 : rootPathlength8 (getLCA node anchor) = last
    · simp only [if_pos h1]; exact ih _ _ _
    · simp only [if_neg h1]
      by_cases h2 : rootPathlength8 (getLCA node anchor) < last
      · simp only [if_pos h2]; exact ih _ _ _
      · simp only [if_neg h2]
        exact le_trans (disorderFold_ge _ _ _ _) (ih _ _ _)

/-- C6: for every non-empty list of (score, node) entries fed to the
band-factor estimator, `getFactor` returns a value in
`[min_bandfactor = 1, max_bandfactor = INT_MAX]`; in particular it is
always at least `1`. -/
theorem bandfactor_range (p : Int × Taxon) (rest : List (Int × Taxon)) :
    1 ≤ getFactor (p :: rest) ∧ getFactor (p :: rest) ≤ ((INTMAX : Int) : ℚ) := by
  obtain ⟨score, anchor⟩ := p
  unfold getFactor
  refine ⟨le_min (bandWalk_ge _ _ _ _ _) ?_, min_le_right _ _⟩
  norm_num [INTMAX]

/-! ### Tokenizer properties -/

theorem ffoAux_eq_none (delims : List Char) (l : List Char)
    (h : ∀ c ∈ l, delims.contains c = false) : ∀ idx, ffoAux delims l idx = none := by
  induction l with
  | nil => intro idx; rfl
  | cons c rest ih =>
    intro idx
    have hc : delims.contains c = false := h c (List.mem_cons_self c rest)
    simp only [ffoAux, hc, Bool.false_eq_true, if_false]
    exact ih (fun d hd => h d (List.mem_cons_of_mem c hd)) (idx + 1)

/-- C10: `tokenizeSingleCharDelim` always appends at least one token;
an empty input yields exactly one empty token; a non-empty input with no
delimiter character and the default `fieldnum = 0` yields the whole
input followed by one extra empty token. -/
theorem tokenizeSingleCharDelim_tokens :
    (∀ (s delims : List Char) (fieldnum : Nat) (te : Bool),
      1 ≤ (tokenizeSingleCharDelim s delims fieldnum te).length) ∧
    (∀ (delims : List Char) (fieldnum : Nat) (te : Bool),
      tokenizeSingleCharDelim [] delims fieldnum te = [[]]) ∧
    (∀ (s delims : List Char) (te : Bool), s ≠ [] → (∀ c ∈ s, c ∉ delims) →
      tokenizeSingleCharDelim s delims 0 te = [s, []]) := by
  refine ⟨?_, ?_, ?_⟩
  · intro s delims fieldnum te
    unfold tokenizeSingleCharDelim
    rcases h : tokenizeLoop s delims te (s.length + 1)
        (if fieldnum = 0 then s.length else fieldnum) 0 with ⟨toks, last⟩
    simp [h]
  · intro delims fieldnum te
    unfold tokenizeSingleCharDelim
    rcases Nat.eq_zero_or_pos fieldnum with h | h
    · simp [h, tokenizeLoop]
    · obtain ⟨m, hm⟩ := Nat.exists_eq_succ_of_ne_zero (Nat.pos_iff_ne_zero.mp h)
      simp [Nat.pos_iff_ne_zero.mp h, hm, tokenizeLoop]
  · intro s delims te hne hnd
    have hlen : s.length ≠ 0 := fun h => hne (List.length_eq_zero.mp h)
    obtain ⟨m, hm⟩ := Nat.exists_eq_succ_of_ne_zero hlen
    have hffo : findFirstOf delims s 0 = none := by
      unfold findFirstOf
      refine ffoAux_eq_none delims (s.drop 0) ?_ 0
      intro c hc
      have : c ∉ delims := hnd c (by simpa using hc)
      simpa [List.contains] using this
    unfold tokenizeSingleCharDelim
    rw [if_pos rfl]
    rw [hm]
    simp only [tokenizeLoop, hffo]
    rw [if_pos (by omega : 0 < s.length)]
    rw [if_pos (Or.inl hlen)]
    simp [subtok]

/-! ### Rank normalization -/

/-- C8: after `deleteUnmarkedNodes()` and `setRankDistances` with the
default marked ranks, every retained node whose annotation carries a
canonical rank sits at that rank's canonical depth. -/
theorem setRankDistances_canonical_depth (T : RankedTaxonomy) (t : Taxon) (r : String) (k : Nat)
    (ht : t ∈ (deleteUnmarkedNodes defaultRanks T).nodes)
    (hr : T.rankOf t = some r) (hk : canonicalIndex r = some k) :
    normalizedDepth (deleteUnmarkedNodes defaultRanks T) t = k := by
  clear ht
  unfold normalizedDepth
  cases htr : t.reverse with
  | nil =>
    have ht0 : t = [] := by
      have := congrArg List.reverse htr
      simpa using this
    subst ht0
    show ndGo (deleteUnmarkedNodes defaultRanks T) [] = k
    have : (deleteUnmarkedNodes defaultRanks T).rankOf [] = some r := hr
    simp [ndGo, this, hk]
  | cons y ys =>
    show ndGo (deleteUnmarkedNodes defaultRanks T) (y :: ys) = k
    have hrev : (y :: ys).reverse = t := by
      rw [← htr, List.reverse_reverse]
    have hro : (deleteUnmarkedNodes defaultRanks T).rankOf ((y :: ys).reverse) = some r := by
      rw [hrev]; exact hr
    simp only [List.reverse_cons] at hro
    simp [ndGo, hro, hk]

/-! ### Screening -/

theorem qmaxscore_foldl_ge (l : List AlignmentRecord) :
    ∀ s : ℚ, s ≤ l.foldl (fun m r => if r.filtered then m else max m r.score) s := by
  induction l with
  | nil => intro s; simp
  | cons r rest ih =>
    intro s
    simp only [List.foldl_cons]
    refine le_trans ?_ (ih _)
    by_cases h : r.filtered
    · simp [h]
    · simp [h, le_max_left]

theorem qmaxscoreOf_nonneg (rs : List AlignmentRecord) : 0 ≤ qmaxscoreOf rs :=
  qmaxscore_foldl_ge rs 0

theorem screen_getD_lt (ex : ℚ) (rs : List AlignmentRecord) (i : Nat) (h : i < rs.length) :
    (screenRecords ex rs).getD i default =
      (if (rs.getD i default).filtered = false ∧
          (rs.getD i default).score < qmaxscoreOf rs * ex
       then { rs.getD i default with filtered := true } else rs.getD i default) := by
  unfold screenRecords
  rw [List.getD_eq_getElem?_getD, List.getElem?_map, List.getElem?_eq_getElem h,
    List.getD_eq_getElem?_getD, List.getElem?_eq_getElem h]
  rfl

/-- C9: screening is monotone in the exclusion factor: with
`f1 ≤ f2` (both in `(0, 1]`), every record left unfiltered by screening
with factor `f2` is also left unfiltered with factor `f1`. -/
theorem screen_monotone (f1 f2 : ℚ) (rs : List AlignmentRecord) (i : Nat)
    (h0 : 0 < f1) (h12 : f1 ≤ f2) (h1 : f2 ≤ 1)
    (hu : ((screenRecords f2 rs).getD i default).filtered = false) :
    ((screenRecords f1 rs).getD i default).filtered = false := by
  by_cases hlen : i < rs.length
  · rw [screen_getD_lt f2 rs i hlen] at hu
    rw [screen_getD_lt f1 rs i hlen]
    set r := rs.getD i default with hr
    by_cases hc2 : r.filtered = false ∧ r.score < qmaxscoreOf rs * f2
    · rw [if_pos hc2] at hu
      simp at hu
    · rw [if_neg hc2] at hu
      have hs2 : ¬ r.score < qmaxscoreOf rs * f2 := by
        intro hlt
        exact hc2 ⟨hu, hlt⟩
      have hle : qmaxscoreOf rs * f1 ≤ qmaxscoreOf rs * f2 :=
        mul_le_mul_of_nonneg_left h12 (qmaxscoreOf_nonneg rs)
      have hs1 : ¬ r.score < qmaxscoreOf rs * f1 := fun hlt =>
        hs2 (lt_of_lt_of_le hlt hle)
      rw [if_neg (fun hc => hs1 hc.2)]
      exact hu
  · have hl2 : (screenRecords f1 rs).length ≤ i := by
      unfold screenRecords
      simpa using Nat.le_of_not_lt hlen
    rw [List.getD_eq_default _ _ hl2]
    rfl

/-! ### predict: the n = 0 and n = 1 paths -/

/-- C7: when screening leaves no unfiltered record, `predict` emits the
unclassified prediction and returns; no alignment is computed and no
sequence is fetched. -/
theorem predict_empty_unclassified (qseq : Nat → Nat → List Nat)
    (db dbRC : Nat → Nat → Nat → List Nat) (ed : List Nat → List Nat → Int)
    (ex rb : ℚ) (rs : List AlignmentRecord)
    (h : countUnfiltered (screenRecords ex rs) = 0) :
    predict qseq db dbRC ed ex rb rs =
      ⟨PredictResult.unclassified, 0, 0, 0, 0, []⟩ := by
  unfold countUnfiltered at h
  have hnil : unfilteredList (screenRecords ex rs) = [] := List.length_eq_zero.mp h
  unfold predict
  rw [hnil]
  rfl

/-- C1: when exactly one record survives screening, `predict` emits a
prediction built from that record (lower node and best reference is the
record's reference node, upper node is the root, interpolation value 1,
support the record's identities, query range the record's range) and
returns without computing any alignment or fetching any sequence. -/
theorem predict_single_alignment (qseq : Nat → Nat → List Nat)
    (db dbRC : Nat → Nat → Nat → List Nat) (ed : List Nat → List Nat → Int)
    (ex rb : ℚ) (rs : List AlignmentRecord)
    (h : countUnfiltered (screenRecords ex rs) = 1) :
    predict qseq db dbRC ed ex rb rs =
      ⟨PredictResult.classified
        ⟨((unfilteredList (screenRecords ex rs)).headD default).queryStart,
         ((unfilteredList (screenRecords ex rs)).headD default).queryStop,
         ((unfilteredList (screenRecords ex rs)).headD default).referenceNode,
         [],
         ((unfilteredList (screenRecords ex rs)).headD default).referenceNode,
         1,
         ((unfilteredList (screenRecords ex rs)).headD default).identities⟩,
       0, 0, 0, 0, []⟩ := by
  unfold countUnfiltered at h
  obtain ⟨r, hr⟩ := List.length_eq_one.mp h
  unfold predict
  rw [hr]
  rfl

/-! ### Pass 1: which indices the inner loop processes -/

theorem pass1body_obs (C : RPACtx) (anchor : Nat) (qscore : Int) (st : Pass1Inner) (i : Nat) :
    (pass1body C anchor qscore st i).processed = st.processed ++ [i] ∧
    (pass1body C anchor qscore st i).bf.length = st.bf.length + 1 ∧
    (pass1body C anchor qscore st i).og.length + (pass1body C anchor qscore st i).luCount
        + (pass1body C anchor qscore st i).ieCount
      = st.og.length + st.luCount + st.ieCount + 1 := by
  unfold pass1body
  rcases (if i = anchor then ((0 : Int), st.qscores, st.rmatches, st.counter)
    else if st.qscores.getD i 0 = 0 ∧ st.qscores.getD anchor 0 = 0 then
      (st.qscores.getD i 0, st.qscores, st.rmatches, st.counter)
    else
      let sc := C.ed (C.rr.getD i []) (C.rr.getD anchor [])
      let m := toInt32 (sizeTSub (max (C.rr.getD i []).length (C.rr.getD anchor []).length) sc)
      if st.qscores.getD anchor 0 = 0 ∧ st.rmatches.getD i 0 ≠ 0 then
        (sc, st.qscores.set i sc, st.rmatches.set i (wrap64 m).toNat, st.counter + 1)
      else (sc, st.qscores, st.rmatches, st.counter + 1)) with ⟨score, qscores, rmatches, cnt⟩
  by_cases h0 : score = 0
  · simp [h0]
    omega
  · by_cases hq : score ≤ qscore
    · simp [h0, hq]
      omega
    · simp [h0, hq]
      omega

/-- C3 (amended): each pass-1 anchor iteration processes a contiguous
descending block of indices `n-1, n-2, …, k`, stopping early exactly
when the running lower node reaches the root; every processed index adds
one entry to the band-factor accumulator and is classified into exactly
one of the three buckets (sequence-identical, lower-node update,
temporary outgroup); when the lower node never reaches the root, all `n`
indices are processed (`k = 0`). -/
theorem pass1inner_processes (C : RPACtx) (anchor : Nat) (qscore : Int) :
    ∀ (n : Nat) (st : Pass1Inner), ∃ k, k ≤ n ∧
      (pass1innerLoop C anchor qscore st n).processed
        = st.processed ++ (List.range' k (n - k)).reverse ∧
      (pass1innerLoop C anchor qscore st n).bf.length = st.bf.length + (n - k) ∧
      (pass1innerLoop C anchor qscore st n).og.length
          + (pass1innerLoop C anchor qscore st n).luCount
          + (pass1innerLoop C anchor qscore st n).ieCount
        = st.og.length + st.luCount + st.ieCount + (n - k) ∧
      ((pass1innerLoop C anchor qscore st n).lnode ≠ [] → k = 0) := by
  intro n
  induction n with
  | zero =>
    intro st
    exact ⟨0, le_refl 0, by simp [pass1innerLoop], by simp [pass1innerLoop],
      by simp [pass1innerLoop], fun _ => rfl⟩
  | succ n ih =>
    intro st
    by_cases h : st.lnode = []
    · refine ⟨n + 1, le_refl _, ?_, ?_, ?_, ?_⟩
      · simp [pass1innerLoop, h]
      · simp [pass1innerLoop, h]
      · simp [pass1innerLoop, h]
      · intro hc
        exfalso
        apply hc
        simp [pass1innerLoop, h]
    · have hstep : pass1innerLoop C anchor qscore st (n + 1)
          = pass1innerLoop C anchor qscore (pass1body C anchor qscore st n) n := by
        simp [pass1innerLoop, h]
      obtain ⟨k, hk, hproc, hbf, hcl, hln⟩ := ih (pass1body C anchor qscore st n)
      obtain ⟨hbproc, hbbf, hbcl⟩ := pass1body_obs C anchor qscore st n
      refine ⟨k, Nat.le_succ_of_le hk, ?_, ?_, ?_, ?_⟩
      · rw [hstep, hproc, hbproc]
        have hrange : List.range' k (n + 1 - k) = List.range' k (n - k) ++ [n] := by
          have h1 : n + 1 - k = (n - k) + 1 := by omega
          rw [h1, List.range'_concat]
          have h2 : k + 1 * (n - k) = n := by omega
          rw [h2]
        rw [hrange]
        simp
      · rw [hstep, hbf, hbbf]
        omega
      · rw [hstep, hcl, hbcl]
        omega
      · rw [hstep]
        exact hln

/-- C3 counterexample: a recordset with two unfiltered records (both
exact matches to the query, in different root subtrees) on which the
single pass-1 anchor iteration processes no record index at all: the
best-reference taxon is already the root, so the inner loop body never
runs even though `n = 2`. -/
theorem pass1_skips_indices_cex :
    countUnfiltered (screenRecords 1 [rec0, rec1]) = 2 ∧
    (predict zeroQSeq zeroDb zeroDb zeroEd 1 0 [rec0, rec1]).pass1Processed = [[]] := by
  constructor
  · norm_num [countUnfiltered, unfilteredList, screenRecords, qmaxscoreOf, rec0, rec1]
  · have hscr : screenRecords 1 [rec0, rec1] = [rec0, rec1] := by
      norm_num [screenRecords, qmaxscoreOf, rec0, rec1]
    have hq : qmaxscoreOf [rec0, rec1] = 10 := by
      norm_num [qmaxscoreOf, rec0, rec1]
    have hrange : List.range 2 = [0, 1] := by decide
    unfold predict
    rw [hscr, hq]
    simp [unfilteredList, rec0, rec1, predictCore, multiC, multiQrstart, multiQrstop,
      fetchRef, zeroQSeq, zeroDb, zeroEd, pass0All, p0At, pass0Init, pass0step,
      pass0retention, hrange, multiSt1, multiSt2, pass1loopF, pass1anchor, pass1innerLoop,
      pass1body, pass2loopF, pass2anchor, pass2inner, minUpperLoop, survivorLoop,
      sortedInsert, eraseElem, getLCA]

/-! ### The upper node stays an ancestor of the lower node -/

theorem getLCA_mono (u1 u2 l1 l2 : Taxon) (h1 : isParentOf u1 l1 = true)
    (h2 : isParentOf u2 l2 = true) :
    isParentOf (getLCA u1 u2) (getLCA l1 l2) = true :=
  isParentOf_getLCA _ _ _
    (isParentOf_trans _ _ _ (getLCA_isParentOf_left u1 u2) h1)
    (isParentOf_trans _ _ _ (getLCA_isParentOf_right u1 u2) h2)

theorem survivorLoop_none (C : RPACtx) (rtax : Taxon) (mU : Int) :
    ∀ (l : List (Nat × Int)) (og : List Nat) (dmin : Nat),
      (survivorLoop C rtax mU l none og dmin).1 = none := by
  intro l
  induction l with
  | nil => intro og dmin; rfl
  | cons p rest ih =>
    intro og dmin
    obtain ⟨i, s⟩ := p
    by_cases h : mU < s
    · simp only [survivorLoop, if_pos h]
      exact ih og dmin
    · simp only [survivorLoop, if_neg h]
      by_cases h1 : dmin < rootPathlength8 (getLCA (C.ro.getD i default).referenceNode rtax)
      · simp only [if_pos h1]
        exact ih og dmin
      · simp only [if_neg h1]
        by_cases h2 : rootPathlength8 (getLCA (C.ro.getD i default).referenceNode rtax) < dmin
        · simp only [if_pos h2]
          exact ih _ _
        · simp only [if_neg h2]
          exact ih _ _

theorem survivorLoop_some (C : RPACtx) (rtax : Taxon) (mU : Int) :
    ∀ (l : List (Nat × Int)) (og : List Nat) (dmin : Nat) (t : Taxon),
      ∃ t', (survivorLoop C rtax mU l (some t) og dmin).1 = some t' ∧
        isParentOf t' t = true := by
  intro l
  induction l with
  | nil => exact fun og dmin t => ⟨t, rfl, isParentOf_refl t⟩
  | cons p rest ih =>
    intro og dmin t
    obtain ⟨i, s⟩ := p
    by_cases h : mU < s
    · simp only [survivorLoop, if_pos h]
      exact ih og dmin t
    · have key : ∀ og' dmin',
          ∃ t', (survivorLoop C rtax mU rest
              (some (getLCA (C.ro.getD i default).referenceNode t)) og' dmin').1 = some t' ∧
            isParentOf t' t = true := by
        intro og' dmin'
        obtain ⟨t', ht1, ht2⟩ := ih og' dmin' (getLCA (C.ro.getD i default).referenceNode t)
        exact ⟨t', ht1, isParentOf_trans _ _ _ ht2
          (getLCA_isParentOf_right (C.ro.getD i default).referenceNode t)⟩
      simp only [survivorLoop, if_neg h]
      by_cases h1 : dmin < rootPathlength8 (getLCA (C.ro.getD i default).referenceNode rtax)
      · simp only [if_pos h1]
        exact key og dmin
      · simp only [if_neg h1]
        by_cases h2 : rootPathlength8 (getLCA (C.ro.getD i default).referenceNode rtax) < dmin
        · simp only [if_pos h2]
          exact key _ _
        · simp only [if_neg h2]
          exact key _ _

theorem pass1anchor_parent (C : RPACtx) (rtax : Taxon) (st : Pass1State)
    (h : isParentOf st.unodeG st.lnodeG = true) :
    isParentOf (pass1anchor C rtax st).unodeG (pass1anchor C rtax st).lnodeG = true := by
  unfold pass1anchor
  cases hq : st.qgroup with
  | nil => exact h
  | cons anchor rest =>
    simp only []
    set inn := pass1innerLoop C anchor (st.qscores.getD anchor 0)
      ⟨rtax, 0, INTMAX, rest, st.qscores, st.rmatches, [],
       [(0, (C.ro.getD anchor default).referenceNode)], st.counter, [], 0, 0⟩
      C.ro.length with hinn
    set mu := minUpperLoop
      (truncToInt ((st.qscores.getD anchor 0 : ℚ) * getFactor inn.bf)) inn.og INTMAX
      with hmu
    refine getLCA_mono _ _ _ _ h ?_
    by_cases hne : mu.2 = INTMAX
    · rw [if_neg (by simpa using hne)]
      rw [survivorLoop_none]
      exact isParentOf_nil_left _
    · rw [if_pos hne]
      obtain ⟨t', ht1, ht2⟩ :=
        survivorLoop_some C rtax mu.2 mu.1 st.outgroup st.dmin inn.lnode
      rw [ht1]
      exact ht2

theorem pass1loopF_parent (C : RPACtx) (rtax : Taxon) :
    ∀ (f : Nat) (st : Pass1State), isParentOf st.unodeG st.lnodeG = true →
      isParentOf (pass1loopF C rtax f st).unodeG (pass1loopF C rtax f st).lnodeG = true := by
  intro f
  induction f with
  | zero => intro st h; exact h
  | succ f ih =>
    intro st h
    simp only [pass1loopF]
    by_cases hc : (pass1anchor C rtax st).qgroup ≠ [] ∧ (pass1anchor C rtax st).lnodeG ≠ []
    · simp only [if_pos hc]
      exact ih _ (pass1anchor_parent C rtax st h)
    · simp only [if_neg hc]
      exact pass1anchor_parent C rtax st h

theorem ite_getLCA_parent (c : Prop) [Decidable c] (u cnode : Taxon) :
    isParentOf (if c then getLCA u cnode else u) u = true := by
  by_cases h : c
  · rw [if_pos h]
    exact getLCA_isParentOf_left u cnode
  · rw [if_neg h]
    exact isParentOf_refl u

theorem pass2innerStep_parent (C : RPACtx) (anchor : Nat) (qex : Int) (s : Pass2State)
    (i : Nat) : isParentOf (pass2innerStep C anchor qex s i).unodeG s.unodeG = true := by
  unfold pass2innerStep
  exact ite_getLCA_parent _ _ _

theorem pass2inner_parent (C : RPACtx) (anchor : Nat) (qex : Int) (st : Pass2State) :
    isParentOf (pass2inner C anchor qex st).unodeG st.unodeG = true := by
  unfold pass2inner
  generalize List.range C.ro.length = l
  induction l generalizing st with
  | nil => exact isParentOf_refl _
  | cons i rest ih =>
    simp only [List.foldl_cons]
    exact isParentOf_trans _ _ _ (ih _) (pass2innerStep_parent C anchor qex st i)

theorem pass2anchor_parent (C : RPACtx) (lcaAll : Taxon) (st : Pass2State) :
    isParentOf (pass2anchor C lcaAll st).unodeG st.unodeG = true := by
  unfold pass2anchor
  cases hq : st.outgroup with
  | nil => exact isParentOf_refl _
  | cons anchor rest =>
    simp only []
    by_cases hEq : st.unodeG = lcaAll
    · simp only [if_pos hEq]
      exact isParentOf_refl _
    · simp only [if_neg hEq]
      rcases (if st.rmatches.getD anchor 0 = 0 then
          (st.qscores.set anchor (C.ed (C.rr.getD anchor []) C.qrseq),
           st.rmatches.set anchor
             (wrap64 (toInt32 (sizeTSub
               (max (C.rr.getD anchor []).length C.qrseq.length)
               (C.ed (C.rr.getD anchor []) C.qrseq)))).toNat,
           st.counter + 1)
        else (st.qscores, st.rmatches, st.counter)) with ⟨qscores1, matches1, cnt1⟩
      exact pass2inner_parent C anchor _ _

theorem pass2loopF_parent (C : RPACtx) (lcaAll : Taxon) :
    ∀ (f : Nat) (st : Pass2State),
      isParentOf (pass2loopF C lcaAll f st).unodeG st.unodeG = true := by
  intro f
  induction f with
  | zero => intro st; exact isParentOf_refl _
  | succ f ih =>
    intro st
    simp only [pass2loopF]
    by_cases h : st.outgroup = []
    · simp only [if_pos h]
      exact isParentOf_refl _
    · simp only [if_neg h]
      exact isParentOf_trans _ _ _ (ih _) (pass2anchor_parent C lcaAll st)

/-- C2: whenever `predict` emits a prediction record (at least one
record survived screening), its final upper node is an ancestor of or
equal to its final lower node. -/
theorem predict_upper_ancestor_of_lower (qseq : Nat → Nat → List Nat)
    (db dbRC : Nat → Nat → Nat → List Nat) (ed : List Nat → List Nat → Int)
    (ex rb : ℚ) (rs : List AlignmentRecord) (pr : PredictionRecord)
    (h : (predict qseq db dbRC ed ex rb rs).result = PredictResult.classified pr) :
    isParentOf pr.upperNode pr.lowerNode = true := by
  unfold predict predictCore at h
  cases hul : unfilteredList (screenRecords ex rs) with
  | nil =>
    rw [hul] at h
    simp at h
  | cons r tail =>
    cases tail with
    | nil =>
      rw [hul] at h
      simp only [PredictResult.classified.injEq] at h
      subst h
      exact isParentOf_nil_left _
    | cons r1 rest =>
      rw [hul] at h
      simp only [PredictResult.classified.injEq] at h
      subst h
      have h1 : isParentOf
          (multiSt1 (multiC qseq db dbRC ed rb (qmaxscoreOf rs) r r1 rest)
            (pass0retention (multiC qseq db dbRC ed rb (qmaxscoreOf rs) r r1 rest)
              (pass0All (multiC qseq db dbRC ed rb (qmaxscoreOf rs) r r1 rest)))
            (pass0All (multiC qseq db dbRC ed rb (qmaxscoreOf rs) r r1 rest))).unodeG
          (multiSt1 (multiC qseq db dbRC ed rb (qmaxscoreOf rs) r r1 rest)
            (pass0retention (multiC qseq db dbRC ed rb (qmaxscoreOf rs) r r1 rest)
              (pass0All (multiC qseq db dbRC ed rb (qmaxscoreOf rs) r r1 rest)))
            (pass0All (multiC qseq db dbRC ed rb (qmaxscoreOf rs) r r1 rest))).lnodeG
          = true := by
        unfold multiSt1
        exact pass1loopF_parent _ _ _ _ (isParentOf_refl _)
      have h2 : isParentOf
          (multiSt2 (multiC qseq db dbRC ed rb (qmaxscoreOf rs) r r1 rest)
            (pass0All (multiC qseq db dbRC ed rb (qmaxscoreOf rs) r r1 rest)).lca_allnodes
            (multiSt1 (multiC qseq db dbRC ed rb (qmaxscoreOf rs) r r1 rest)
              (pass0retention (multiC qseq db dbRC ed rb (qmaxscoreOf rs) r r1 rest)
                (pass0All (multiC qseq db dbRC ed rb (qmaxscoreOf rs) r r1 rest)))
              (pass0All (multiC qseq db dbRC ed rb (qmaxscoreOf rs) r r1 rest)))).unodeG
          (multiSt1 (multiC qseq db dbRC ed rb (qmaxscoreOf rs) r r1 rest)
            (pass0retention (multiC qseq db dbRC ed rb (qmaxscoreOf rs) r r1 rest)
              (pass0All (multiC qseq db dbRC ed rb (qmaxscoreOf rs) r r1 rest)))
            (pass0All (multiC qseq db dbRC ed rb (qmaxscoreOf rs) r r1 rest))).unodeG
          = true := by
        unfold multiSt2
        exact pass2loopF_parent _ _ _ _
      exact isParentOf_trans _ _ _ h2 h1

/-! ### Interpolation value bounds -/

theorem pass1body_scoreInv (C : RPACtx) (anchor : Nat) (qscore : Int) (st : Pass1Inner)
    (i : Nat) (hed : ∀ a b, C.ed a b ≤ INTMAX)
    (h1 : ∀ p ∈ st.og, qscore < p.2 ∧ p.2 ≤ INTMAX)
    (h2 : st.uscore = INTMAX ∨ qscore < st.uscore) :
    (∀ p ∈ (pass1body C anchor qscore st i).og, qscore < p.2 ∧ p.2 ≤ INTMAX) ∧
    ((pass1body C anchor qscore st i).uscore = INTMAX ∨
      qscore < (pass1body C anchor qscore st i).uscore) := by
  unfold pass1body
  by_cases hA : i = anchor
  · simp only [if_pos hA]
    exact ⟨h1, h2⟩
  · simp only [if_neg hA]
    by_cases hB : st.qscores.getD i 0 = 0 ∧ st.qscores.getD anchor 0 = 0
    · simp only [if_pos hB]
      rw [if_pos hB.1]
      exact ⟨h1, h2⟩
    · simp only [if_neg hB]
      by_cases hC : st.qscores.getD anchor 0 = 0 ∧ st.rmatches.getD i 0 ≠ 0
      all_goals
        first
        | simp only [if_pos hC]
        | simp only [if_neg hC]
      all_goals
        by_cases h0 : C.ed (C.rr.getD i []) (C.rr.getD anchor []) = 0
      all_goals
        first
        | (simp only [if_pos h0]; exact ⟨h1, h2⟩)
        | skip
      all_goals
        simp only [if_neg h0]
      all_goals
        by_cases hq : C.ed (C.rr.getD i []) (C.rr.getD anchor []) ≤ qscore
      all_goals
        first
        | (simp only [if_pos hq]; exact ⟨h1, h2⟩)
        | skip
      all_goals
        simp only [if_neg hq]
      all_goals
        refine ⟨?_, ?_⟩
      all_goals
        try
          (intro p hp
           rcases List.mem_append.mp hp with hold | hnew
           · exact h1 p hold
           · have hpe : p = (i, C.ed (C.rr.getD i []) (C.rr.getD anchor [])) := by
               simpa using hnew
             subst hpe
             exact ⟨lt_of_not_le hq, hed _ _⟩)
      all_goals
        by_cases hlt : C.ed (C.rr.getD i []) (C.rr.getD anchor []) < st.uscore
      all_goals
        first
        | (simp only [if_pos hlt]; exact Or.inr (lt_of_not_le hq))
        | (simp only [if_neg hlt]; exact h2)

theorem pass1innerLoop_scoreInv (C : RPACtx) (anchor : Nat) (qscore : Int)
    (hed : ∀ a b, C.ed a b ≤ INTMAX) :
    ∀ (n : Nat) (st : Pass1Inner),
      (∀ p ∈ st.og, qscore < p.2 ∧ p.2 ≤ INTMAX) →
      (st.uscore = INTMAX ∨ qscore < st.uscore) →
      (∀ p ∈ (pass1innerLoop C anchor qscore st n).og, qscore < p.2 ∧ p.2 ≤ INTMAX) ∧
      ((pass1innerLoop C anchor qscore st n).uscore = INTMAX ∨
        qscore < (pass1innerLoop C anchor qscore st n).uscore) := by
  intro n
  induction n with
  | zero => exact fun st h1 h2 => ⟨h1, h2⟩
  | succ n ih =>
    intro st h1 h2
    by_cases h : st.lnode = []
    · simp only [pass1innerLoop, if_pos h]
      exact ⟨h1, h2⟩
    · simp only [pass1innerLoop, if_neg h]
      obtain ⟨g1, g2⟩ := pass1body_scoreInv C anchor qscore st n hed h1 h2
      exact ih _ g1 g2

theorem pass1anchor_ivalG (C : RPACtx) (rtax : Taxon) (st : Pass1State)
    (hed : ∀ a b, 0 ≤ C.ed a b ∧ C.ed a b ≤ INTMAX)
    (h : 0 ≤ st.ivalG ∧ st.ivalG ≤ 1) :
    0 ≤ (pass1anchor C rtax st).ivalG ∧ (pass1anchor C rtax st).ivalG ≤ 1 := by
  unfold pass1anchor
  cases hq : st.qgroup with
  | nil => exact h
  | cons anchor rest =>
    simp only []
    set inn := pass1innerLoop C anchor (st.qscores.getD anchor 0)
      ⟨rtax, 0, INTMAX, rest, st.qscores, st.rmatches, [],
       [(0, (C.ro.getD anchor default).referenceNode)], st.counter, [], 0, 0⟩
      C.ro.length with hinn
    set mu := minUpperLoop
      (truncToInt ((st.qscores.getD anchor 0 : ℚ) * getFactor inn.bf)) inn.og INTMAX
      with hmu
    have hival : 0 ≤ anchorIval inn.lnode inn.lscore inn.uscore (st.qscores.getD anchor 0)
        (survivorLoop C rtax mu.2 mu.1
          (if mu.2 ≠ INTMAX then some inn.lnode else none) st.outgroup st.dmin).1 ∧
        anchorIval inn.lnode inn.lscore inn.uscore (st.qscores.getD anchor 0)
        (survivorLoop C rtax mu.2 mu.1
          (if mu.2 ≠ INTMAX then some inn.lnode else none) st.outgroup st.dmin).1 ≤ 1 := by
      by_cases hne : mu.2 = INTMAX
      · rw [if_neg (by simpa using hne)]
        rw [survivorLoop_none]
        norm_num [anchorIval]
      · rw [if_pos hne]
        obtain ⟨t', ht1, ht2⟩ :=
          survivorLoop_some C rtax mu.2 mu.1 st.outgroup st.dmin inn.lnode
        rw [ht1]
        have hInv := pass1innerLoop_scoreInv C anchor (st.qscores.getD anchor 0)
          (fun a b => (hed a b).2) C.ro.length
          ⟨rtax, 0, INTMAX, rest, st.qscores, st.rmatches, [],
           [(0, (C.ro.getD anchor default).referenceNode)], st.counter, [], 0, 0⟩
          (by intro p hp; simp at hp) (Or.inl rfl)
        rw [← hinn] at hInv
        have hog : inn.og ≠ [] := by
          intro hnil
          apply hne
          rw [hmu, hnil]
          rfl
        obtain ⟨⟨iw, sw⟩, hw⟩ := List.exists_mem_of_ne_nil _ hog
        have hws := hInv.1 _ hw
        have hqlt : st.qscores.getD anchor 0 < INTMAX := lt_of_lt_of_le hws.1 hws.2
        have hus : st.qscores.getD anchor 0 < inn.uscore := by
          rcases hInv.2 with h' | h'
          · rw [h']; exact hqlt
          · exact h'
        simp only [anchorIval]
        by_cases hcond : t' ≠ inn.lnode ∧ inn.lscore < st.qscores.getD anchor 0
        · rw [if_pos hcond]
          have hl : inn.lscore < st.qscores.getD anchor 0 := hcond.2
          have hnum : (0 : Int) ≤ st.qscores.getD anchor 0 - inn.lscore := by omega
          have hden : (0 : Int) < inn.uscore - inn.lscore := by omega
          have hle : st.qscores.getD anchor 0 - inn.lscore ≤ inn.uscore - inn.lscore := by
            omega
          constructor
          · apply div_nonneg
            · exact_mod_cast hnum
            · exact_mod_cast le_of_lt hden
          · rw [div_le_one (by exact_mod_cast hden)]
            exact_mod_cast hle
        · rw [if_neg hcond]
          norm_num
    exact ⟨le_trans h.1 (le_max_left _ _), max_le h.2 hival.2⟩

theorem pass1loopF_ivalG (C : RPACtx) (rtax : Taxon)
    (hed : ∀ a b, 0 ≤ C.ed a b ∧ C.ed a b ≤ INTMAX) :
    ∀ (f : Nat) (st : Pass1State), 0 ≤ st.ivalG ∧ st.ivalG ≤ 1 →
      0 ≤ (pass1loopF C rtax f st).ivalG ∧ (pass1loopF C rtax f st).ivalG ≤ 1 := by
  intro f
  induction f with
  | zero => exact fun st h => h
  | succ f ih =>
    intro st h
    simp only [pass1loopF]
    by_cases hc : (pass1anchor C rtax st).qgroup ≠ [] ∧ (pass1anchor C rtax st).lnodeG ≠ []
    · simp only [if_pos hc]
      exact ih _ (pass1anchor_ivalG C rtax st hed h)
    · simp only [if_neg hc]
      exact pass1anchor_ivalG C rtax st hed h

/-- C4: every prediction record emitted by `predict` has an
interpolation value in `[0, 1]`, and whenever the emitted lower node
equals the emitted upper node the interpolation value is `1`.  The
aligner oracle is assumed to return scores in the C++ `int` range as the
spec's nonnegative edit distances. -/
theorem predict_interpolation_bounds (qseq : Nat → Nat → List Nat)
    (db dbRC : Nat → Nat → Nat → List Nat) (ed : List Nat → List Nat → Int)
    (ex rb : ℚ) (rs : List AlignmentRecord) (pr : PredictionRecord)
    (hed : ∀ a b, 0 ≤ ed a b ∧ ed a b ≤ INTMAX)
    (h : (predict qseq db dbRC ed ex rb rs).result = PredictResult.classified pr) :
    0 ≤ pr.interpolationValue ∧ pr.interpolationValue ≤ 1 ∧
      (pr.lowerNode = pr.upperNode → pr.interpolationValue = 1) := by
  unfold predict predictCore at h
  cases hul : unfilteredList (screenRecords ex rs) with
  | nil =>
    rw [hul] at h
    simp at h
  | cons r tail =>
    cases tail with
    | nil =>
      rw [hul] at h
      simp only [PredictResult.classified.injEq] at h
      subst h
      exact ⟨by norm_num, by norm_num, fun _ => rfl⟩
    | cons r1 rest =>
      rw [hul] at h
      simp only [PredictResult.classified.injEq] at h
      subst h
      set C0 := multiC qseq db dbRC ed rb (qmaxscoreOf rs) r r1 rest with hC0
      set p0 := pass0All C0 with hp0
      set ret := pass0retention C0 p0 with hret
      set st1 := multiSt1 C0 ret p0 with hst1
      set st2 := multiSt2 C0 p0.lca_allnodes st1 with hst2
      have hb : 0 ≤ st1.ivalG ∧ st1.ivalG ≤ 1 := by
        rw [hst1]
        unfold multiSt1
        exact pass1loopF_ivalG C0 ret.2 (fun a b => hed a b) ret.1.length _
          ⟨le_refl 0, by norm_num⟩
      dsimp only
      by_cases hc : st2.unodeG = st1.lnodeG
      · rw [if_pos hc]
        exact ⟨by norm_num, le_refl 1, fun _ => rfl⟩
      · rw [if_neg hc]
        exact ⟨hb.1, hb.2, fun hlu => absurd hlu.symm hc⟩

/-! ### Pass 0: the retained qgroup is never empty -/

theorem p0At_succ (C : RPACtx) (k : Nat) :
    p0At C (k + 1) = pass0step C (p0At C k) k := by
  unfold p0At
  rw [List.range_succ, List.foldl_append]
  rfl

theorem mem_sortedInsert_self (x : Nat) (l : List Nat) : x ∈ sortedInsert x l := by
  induction l with
  | nil => simp [sortedInsert]
  | cons y ys ih =>
    by_cases h1 : x < y
    · simp [sortedInsert, h1]
    · by_cases h2 : x = y
      · simp [sortedInsert, h1, h2]
      · simp only [sortedInsert, if_neg h1, if_neg h2]
        exact List.mem_cons_of_mem y ih

theorem mem_sortedInsert_of_mem (x y : Nat) (l : List Nat) (h : y ∈ l) :
    y ∈ sortedInsert x l := by
  induction l with
  | nil => simp at h
  | cons z zs ih =>
    by_cases h1 : x < z
    · simp only [sortedInsert, if_pos h1]
      exact List.mem_cons_of_mem x h
    · by_cases h2 : x = z
      · simpa [sortedInsert, if_neg h1, h2] using h
      · simp only [sortedInsert, if_neg h1, if_neg h2]
        rcases List.mem_cons.mp h with h3 | h3
        · exact h3 ▸ List.mem_cons_self z _
        · exact List.mem_cons_of_mem z (ih h3)

theorem getD_append_lt (l : List Int) (x : Int) (j : Nat) (h : j < l.length) :
    (l ++ [x]).getD j 0 = l.getD j 0 :=
  List.getD_append _ _ _ _ h

theorem getD_append_len (l : List Int) (x : Int) :
    (l ++ [x]).getD l.length 0 = x := by
  rw [List.getD_append_right _ _ _ _ (le_refl _)]
  simp

theorem pass0_inv_step (k : Nat) (qs : List Int) (ms : List Nat) (qg qg' : List Nat)
    (ib : Nat) (sc : Int) (m : Nat) (ib' : Nat)
    (hlen : qs.length = k)
    (hib : ib = 0 ∨ ib < k)
    (hS : ∀ j, j < k → j ∉ qg → qs.getD j 0 = INTMAX)
    (hB : ∀ j, j < k → qs.getD ib 0 ≤ qs.getD j 0)
    (hmono : ∀ j, j ∈ qg → j ∈ qg')
    (hk : k ∈ qg' ∨ sc = INTMAX)
    (hib' : ib' = if sc < (qs ++ [sc]).getD ib 0 ∨
        (sc = (qs ++ [sc]).getD ib 0 ∧ (ms ++ [m]).getD ib 0 < m) then k else ib) :
    (ib' = 0 ∨ ib' < k + 1) ∧
    (∀ j, j < k + 1 → j ∉ qg' → (qs ++ [sc]).getD j 0 = INTMAX) ∧
    (∀ j, j < k + 1 → (qs ++ [sc]).getD ib' 0 ≤ (qs ++ [sc]).getD j 0) := by
  have hgetD_lt : ∀ j, j < k → (qs ++ [sc]).getD j 0 = qs.getD j 0 := by
    intro j hj
    exact getD_append_lt qs sc j (by omega)
  have hgetD_k : (qs ++ [sc]).getD k 0 = sc := by
    rw [← hlen]
    exact getD_append_len qs sc
  have hSnew : ∀ j, j < k + 1 → j ∉ qg' → (qs ++ [sc]).getD j 0 = INTMAX := by
    intro j hj hnot
    rcases Nat.lt_succ_iff_lt_or_eq.mp hj with hlt | heq
    · rw [hgetD_lt j hlt]
      exact hS j hlt (fun hmem => hnot (hmono j hmem))
    · subst heq
      rcases hk with hmem | hsc
      · exact absurd hmem hnot
      · rw [hgetD_k, hsc]
  rcases Nat.eq_zero_or_pos k with hk0 | hkpos
  · subst hk0
    have hqs : qs = [] := List.length_eq_zero.mp hlen
    subst hqs
    have hib0 : ib = 0 := by rcases hib with h | h; exact h; omega
    subst hib0
    refine ⟨?_, hSnew, ?_⟩
    · rcases (by rw [hib']; split <;> simp : ib' = 0 ∨ ib' = 0) with h | h <;> exact Or.inl h
    · intro j hj
      have hj0 : j = 0 := by omega
      subst hj0
      have : ib' = 0 := by rw [hib']; split <;> rfl
      rw [this]
  · have hltib : ib < k := by
      rcases hib with h | h
      · omega
      · exact h
    have hbv : (qs ++ [sc]).getD ib 0 = qs.getD ib 0 := hgetD_lt ib hltib
    by_cases hcond : sc < (qs ++ [sc]).getD ib 0 ∨
        (sc = (qs ++ [sc]).getD ib 0 ∧ (ms ++ [m]).getD ib 0 < m)
    · rw [if_pos hcond] at hib'
      subst ib'
      refine ⟨Or.inr (Nat.lt_succ_self k), hSnew, ?_⟩
      intro j hj
      rw [hgetD_k]
      have hscle : sc ≤ qs.getD ib 0 := by
        rcases hcond with h | h
        · rw [hbv] at h; exact le_of_lt h
        · rw [hbv] at h; exact le_of_eq h.1
      rcases Nat.lt_succ_iff_lt_or_eq.mp hj with hlt | heq
      · rw [hgetD_lt j hlt]
        exact le_trans hscle (hB j hlt)
      · subst heq
        rw [hgetD_k]
    · rw [if_neg hcond] at hib'
      subst ib'
      have hble : qs.getD ib 0 ≤ sc := by
        rcases not_or.mp hcond with ⟨h1, _⟩
        rw [hbv] at h1
        exact le_of_not_lt h1
      refine ⟨Or.inr (by omega), hSnew, ?_⟩
      intro j hj
      rw [hbv]
      rcases Nat.lt_succ_iff_lt_or_eq.mp hj with hlt | heq
      · rw [hgetD_lt j hlt]
        exact hB j hlt
      · subst heq
        rw [hgetD_k]
        exact hble

theorem pass0_inv (C : RPACtx) : ∀ k : Nat,
    (p0At C k).qscores.length = k ∧
    (p0At C k).rmatches.length = k ∧
    ((p0At C k).index_best = 0 ∨ (p0At C k).index_best < k) ∧
    (∀ j, j < k → j ∉ (p0At C k).qgroup → (p0At C k).qscores.getD j 0 = INTMAX) ∧
    (∀ j, j < k →
      (p0At C k).qscores.getD (p0At C k).index_best 0 ≤ (p0At C k).qscores.getD j 0) := by
  intro k
  induction k with
  | zero =>
    refine ⟨rfl, rfl, Or.inl rfl, ?_, ?_⟩ <;> intro j hj <;> omega
  | succ k ih =>
    obtain ⟨L1, L2, IB, S, B⟩ := ih
    rw [p0At_succ]
    by_cases h1 : (C.ro.getD k default).alignmentLength = C.qrlength ∧
        (C.ro.getD k default).identities = C.qrlength
    · simp only [pass0step, if_pos h1]
      have hstep := pass0_inv_step k (p0At C k).qscores (p0At C k).rmatches
        (p0At C k).qgroup (sortedInsert k (p0At C k).qgroup) (p0At C k).index_best
        0 (C.ro.getD k default).identities _ L1 IB S B
        (fun j hj => mem_sortedInsert_of_mem k j _ hj)
        (Or.inl (mem_sortedInsert_self k _)) rfl
      exact ⟨by simp [L1], by simp [L2], hstep.1, hstep.2.1, hstep.2.2⟩
    · by_cases h2 : C.threshold ≤ (C.ro.getD k default).score
      · simp only [pass0step, if_neg h1, if_pos h2]
        have hstep := pass0_inv_step k (p0At C k).qscores (p0At C k).rmatches
          (p0At C k).qgroup (sortedInsert k (p0At C k).qgroup) (p0At C k).index_best
          (C.ed (C.rr.getD k []) C.qrseq)
          (max (sizeTSub (max (C.rr.getD k []).length C.qrseq.length)
            (C.ed (C.rr.getD k []) C.qrseq)).toNat (C.ro.getD k default).identities)
          _ L1 IB S B
          (fun j hj => mem_sortedInsert_of_mem k j _ hj)
          (Or.inl (mem_sortedInsert_self k _)) rfl
        exact ⟨by simp [L1], by simp [L2], hstep.1, hstep.2.1, hstep.2.2⟩
      · simp only [pass0step, if_neg h1, if_neg h2]
        have hstep := pass0_inv_step k (p0At C k).qscores (p0At C k).rmatches
          (p0At C k).qgroup (p0At C k).qgroup (p0At C k).index_best
          INTMAX 0 _ L1 IB S B (fun j hj => hj) (Or.inr rfl) rfl
        exact ⟨by simp [L1], by simp [L2], hstep.1, hstep.2.1, hstep.2.2⟩

theorem pass0step_getD_lt (C : RPACtx) (st : Pass0State) (i j : Nat)
    (h : j < st.qscores.length) :
    (pass0step C st i).qscores.getD j 0 = st.qscores.getD j 0 := by
  by_cases h1 : (C.ro.getD i default).alignmentLength = C.qrlength ∧
      (C.ro.getD i default).identities = C.qrlength
  · simp only [pass0step, if_pos h1]
    exact getD_append_lt _ _ _ h
  · by_cases h2 : C.threshold ≤ (C.ro.getD i default).score
    · simp only [pass0step, if_neg h1, if_pos h2]
      exact getD_append_lt _ _ _ h
    · simp only [pass0step, if_neg h1, if_neg h2]
      exact getD_append_lt _ _ _ h

theorem pass0_getD_stable (C : RPACtx) (j : Nat) :
    ∀ m, j < m → (p0At C m).qscores.getD j 0 = (p0At C (j + 1)).qscores.getD j 0 := by
  intro m
  induction m with
  | zero => omega
  | succ m ih =>
    intro hj
    rcases Nat.lt_succ_iff_lt_or_eq.mp hj with hlt | heq
    · rw [p0At_succ, pass0step_getD_lt C _ m j (by rw [(pass0_inv C m).1]; exact hlt)]
      exact ih hlt
    · subst heq
      rfl

theorem getD_append_at (l : List Int) (x : Int) (n : Nat) (h : l.length = n) :
    (l ++ [x]).getD n 0 = x := by
  subst h
  exact getD_append_len l x

theorem pass0_written (C : RPACtx) (j : Nat)
    (hthr : C.threshold ≤ (C.ro.getD j default).score)
    (hedlt : ∀ a b, C.ed a b < INTMAX) :
    (p0At C (j + 1)).qscores.getD j 0 < INTMAX := by
  rw [p0At_succ]
  have hlen : (p0At C j).qscores.length = j := (pass0_inv C j).1
  by_cases h1 : (C.ro.getD j default).alignmentLength = C.qrlength ∧
      (C.ro.getD j default).identities = C.qrlength
  · simp only [pass0step, if_pos h1]
    rw [getD_append_at _ _ _ hlen]
    norm_num [INTMAX]
  · simp only [pass0step, if_neg h1, if_pos hthr]
    rw [getD_append_at _ _ _ hlen]
    exact hedlt _ _

theorem qmax_foldl_attained (l : List AlignmentRecord) :
    ∀ s : ℚ, l.foldl (fun m r => if r.filtered then m else max m r.score) s = s ∨
      ∃ r ∈ l, r.filtered = false ∧
        r.score = l.foldl (fun m r => if r.filtered then m else max m r.score) s := by
  induction l with
  | nil => intro s; exact Or.inl rfl
  | cons r rest ih =>
    intro s
    simp only [List.foldl_cons]
    by_cases hf : r.filtered
    · rw [if_pos hf]
      rcases ih s with h | ⟨r', hr', hf', hs'⟩
      · exact Or.inl h
      · exact Or.inr ⟨r', List.mem_cons_of_mem r hr', hf', hs'⟩
    · rw [if_neg hf]
      rcases ih (max s r.score) with h | ⟨r', hr', hf', hs'⟩
      · by_cases hle : r.score ≤ s
        · have hmax : max s r.score = s := max_eq_left hle
          rw [hmax] at h ⊢
          exact Or.inl h
        · have hmax : max s r.score = r.score := max_eq_right (le_of_not_le hle)
          rw [hmax] at h ⊢
          exact Or.inr ⟨r, List.mem_cons_self r rest, Bool.eq_false_iff.mpr hf, h.symm⟩
      · exact Or.inr ⟨r', List.mem_cons_of_mem r hr', hf', hs'⟩

theorem qmax_foldl_ub (l : List AlignmentRecord) :
    ∀ (s : ℚ) (r : AlignmentRecord), r ∈ l → r.filtered = false →
      r.score ≤ l.foldl (fun m r => if r.filtered then m else max m r.score) s := by
  induction l with
  | nil => intro s r hr; simp at hr
  | cons x xs ih =>
    intro s r hr hf
    simp only [List.foldl_cons]
    rcases List.mem_cons.mp hr with heq | hmem
    · subst heq
      rw [if_neg (Bool.eq_false_iff.mp hf)]
      exact le_trans (le_max_right s r.score) (qmaxscore_foldl_ge xs _)
    · exact ih _ r hmem hf

theorem qmax_attained (rs : List AlignmentRecord)
    (hne : ∃ r ∈ rs, r.filtered = false)
    (hsc : ∀ r ∈ rs, 0 ≤ r.score) :
    ∃ r ∈ rs, r.filtered = false ∧ r.score = qmaxscoreOf rs := by
  rcases qmax_foldl_attained rs 0 with h | h
  · obtain ⟨r, hr, hf⟩ := hne
    refine ⟨r, hr, hf, le_antisymm (qmax_foldl_ub rs 0 r hr hf) ?_⟩
    unfold qmaxscoreOf
    rw [h]
    exact hsc r hr
  · exact h

theorem attainer_unfiltered (ex : ℚ) (rs : List AlignmentRecord) (hex2 : ex ≤ 1)
    (r : AlignmentRecord) (hr : r ∈ rs) (hf : r.filtered = false)
    (hs : r.score = qmaxscoreOf rs) :
    r ∈ unfilteredList (screenRecords ex rs) := by
  have hkeep : ¬ (r.filtered = false ∧ r.score < qmaxscoreOf rs * ex) := by
    rintro ⟨_, hlt⟩
    have : qmaxscoreOf rs * ex ≤ qmaxscoreOf rs := by
      calc qmaxscoreOf rs * ex ≤ qmaxscoreOf rs * 1 :=
        mul_le_mul_of_nonneg_left hex2 (qmaxscoreOf_nonneg rs)
      _ = qmaxscoreOf rs := mul_one _
    rw [hs] at hlt
    exact absurd hlt (not_lt.mpr this)
  have hmem : r ∈ screenRecords ex rs := by
    unfold screenRecords
    rw [List.mem_map]
    refine ⟨r, hr, ?_⟩
    dsimp only
    exact if_neg hkeep
  unfold unfilteredList
  rw [List.mem_filter]
  exact ⟨hmem, by simp [hf]⟩

theorem foldl_keep_ne_nil (step : (List Nat × Taxon) → Nat → (List Nat × Taxon))
    (hmono : ∀ acc i, (step acc i).1 = acc.1 ∨ (step acc i).1 = acc.1 ++ [i])
    (ib : Nat) (hkeep : ∀ acc, (step acc ib).1 = acc.1 ++ [ib]) :
    ∀ (l : List Nat) (acc : List Nat × Taxon),
      ib ∈ l ∨ acc.1 ≠ [] → (l.foldl step acc).1 ≠ [] := by
  intro l
  induction l with
  | nil =>
    intro acc h
    rcases h with h | h
    · simp at h
    · exact h
  | cons x xs ih =>
    intro acc h
    simp only [List.foldl_cons]
    rcases h with h | h
    · rcases List.mem_cons.mp h with heq | hmem
      · subst heq
        refine ih _ (Or.inr ?_)
        rw [hkeep acc]
        simp
      · exact ih _ (Or.inl hmem)
    · refine ih _ (Or.inr ?_)
      rcases hmono acc x with he | he <;> rw [he] <;> simp [h]

theorem pass0retention_ne_nil (C : RPACtx) (st : Pass0State)
    (hib : st.index_best ∈ st.qgroup) :
    (pass0retention C st).1 ≠ [] := by
  unfold pass0retention
  refine foldl_keep_ne_nil _ ?_ st.index_best ?_ st.qgroup _ (Or.inl hib)
  · intro acc i
    by_cases hc : st.qscores.getD i 0 ≠ st.qscores.getD st.index_best 0 ∨
        st.rmatches.getD i 0 ≠ st.rmatches.getD st.index_best 0
    · rw [if_pos hc]
      exact Or.inl rfl
    · rw [if_neg hc]
      exact Or.inr rfl
  · intro acc
    rw [if_neg (by simp)]

/-- C5: on the `n ≥ 2` path (at least two records survive screening),
the retained `qgroup` after the pass-0 retention loop is non-empty —
the `assert(!qgroup.empty())` never fires — provided
`exclude_factor ∈ (0,1]`, `reeval_bandwidth ∈ [0,1)`, record scores are
nonnegative and the aligner returns scores in `[0, INT_MAX)`.  `C` is
the pass context built by `predict` for this recordset. -/
theorem pass0_qgroup_nonempty (C : RPACtx) (ex rb : ℚ) (rs : List AlignmentRecord)
    (hro : C.ro = unfilteredList (screenRecords ex rs))
    (hthr : C.threshold = (1 - rb) * qmaxscoreOf rs)
    (hex1 : 0 < ex) (hex2 : ex ≤ 1) (hrb1 : 0 ≤ rb) (hrb2 : rb < 1)
    (hsc : ∀ r ∈ rs, 0 ≤ r.score)
    (hed : ∀ a b, 0 ≤ C.ed a b ∧ C.ed a b < INTMAX)
    (hn : 2 ≤ C.ro.length) :
    (pass0retention C (pass0All C)).1 ≠ [] := by
  have hulne : ∃ r ∈ rs, r.filtered = false := by
    have hne : unfilteredList (screenRecords ex rs) ≠ [] := by
      intro hnil
      rw [hro, hnil] at hn
      simp at hn
    obtain ⟨x, hx⟩ := List.exists_mem_of_ne_nil _ hne
    have hx' := List.mem_filter.mp hx
    obtain ⟨r, hrmem, hgr⟩ := List.mem_map.mp hx'.1
    have hgr' : (if r.filtered = false ∧ r.score < qmaxscoreOf rs * ex then
        { r with filtered := true } else r) = x := hgr
    by_cases hrf : r.filtered = true
    · rw [if_neg (by rintro ⟨h1, _⟩; rw [hrf] at h1; simp at h1)] at hgr'
      subst hgr'
      rw [hrf] at hx'
      simp at hx'
    · exact ⟨r, hrmem, Bool.not_eq_true _ ▸ hrf⟩
  obtain ⟨rmax, hrmem, hrf, hrs⟩ := qmax_attained rs hulne hsc
  have hrin : rmax ∈ C.ro := by
    rw [hro]
    exact attainer_unfiltered ex rs hex2 rmax hrmem hrf hrs
  obtain ⟨j, hj, hjr⟩ := List.getElem_of_mem hrin
  have hjget : C.ro.getD j default = rmax := by
    rw [List.getD_eq_getElem C.ro default hj]
    exact hjr
  have hthr' : C.threshold ≤ (C.ro.getD j default).score := by
    rw [hjget, hrs, hthr]
    calc (1 - rb) * qmaxscoreOf rs ≤ 1 * qmaxscoreOf rs :=
      mul_le_mul_of_nonneg_right (by linarith) (qmaxscoreOf_nonneg rs)
    _ = qmaxscoreOf rs := one_mul _
  have hwrit : (p0At C (j + 1)).qscores.getD j 0 < INTMAX :=
    pass0_written C j hthr' (fun a b => (hed a b).2)
  have hstab : (p0At C C.ro.length).qscores.getD j 0 = (p0At C (j + 1)).qscores.getD j 0 :=
    pass0_getD_stable C j C.ro.length hj
  obtain ⟨L1, L2, IB, S, B⟩ := pass0_inv C C.ro.length
  have hbest : (p0At C C.ro.length).qscores.getD (p0At C C.ro.length).index_best 0
      < INTMAX := by
    have hb := B j hj
    calc (p0At C C.ro.length).qscores.getD (p0At C C.ro.length).index_best 0
        ≤ (p0At C C.ro.length).qscores.getD j 0 := hb
    _ = (p0At C (j + 1)).qscores.getD j 0 := hstab
    _ < INTMAX := hwrit
  have hibn : (p0At C C.ro.length).index_best < C.ro.length := by
    rcases IB with hz | hlt
    · rw [hz]; omega
    · exact hlt
  have hibmem : (p0At C C.ro.length).index_best ∈ (p0At C C.ro.length).qgroup := by
    by_contra hnot
    have hs := S _ hibn hnot
    rw [hs] at hbest
    exact lt_irrefl _ hbest
  exact pass0retention_ne_nil C (p0At C C.ro.length) hibmem

/-! ### Concrete witnesses -/

theorem predict_empty_unclassified_witness :
    predict zeroQSeq zeroDb zeroDb zeroEd 1 0 [] =
      ⟨PredictResult.unclassified, 0, 0, 0, 0, []⟩ :=
  predict_empty_unclassified zeroQSeq zeroDb zeroDb zeroEd 1 0 [] rfl

theorem predict_single_alignment_witness :
    predict zeroQSeq zeroDb zeroDb zeroEd 1 0 [rec0] =
      ⟨PredictResult.classified ⟨1, 4, [0], [], [0], 1, 4⟩, 0, 0, 0, 0, []⟩ := by
  have hscr : unfilteredList (screenRecords 1 [rec0]) = [rec0] := by
    norm_num [unfilteredList, screenRecords, qmaxscoreOf, rec0]
  have h := predict_single_alignment zeroQSeq zeroDb zeroDb zeroEd 1 0 [rec0]
    (by simp [countUnfiltered, hscr])
  rw [h, hscr]
  rfl

theorem predict_upper_ancestor_witness :
    isParentOf (⟨1, 4, [0], [], [0], 1, 4⟩ : PredictionRecord).upperNode
      (⟨1, 4, [0], [], [0], 1, 4⟩ : PredictionRecord).lowerNode = true := by
  apply predict_upper_ancestor_of_lower zeroQSeq zeroDb zeroDb zeroEd 1 0 [rec0]
  have hscr : unfilteredList (screenRecords 1 [rec0]) = [rec0] := by
    norm_num [unfilteredList, screenRecords, qmaxscoreOf, rec0]
  unfold predict
  rw [hscr]
  rfl

theorem predict_interpolation_bounds_witness :
    0 ≤ (⟨1, 4, [0], [], [0], 1, 4⟩ : PredictionRecord).interpolationValue ∧
      (⟨1, 4, [0], [], [0], 1, 4⟩ : PredictionRecord).interpolationValue ≤ 1 ∧
      ((⟨1, 4, [0], [], [0], 1, 4⟩ : PredictionRecord).lowerNode =
          (⟨1, 4, [0], [], [0], 1, 4⟩ : PredictionRecord).upperNode →
        (⟨1, 4, [0], [], [0], 1, 4⟩ : PredictionRecord).interpolationValue = 1) := by
  apply predict_interpolation_bounds zeroQSeq zeroDb zeroDb zeroEd 1 0 [rec0]
  · exact fun a b => ⟨le_refl 0, by norm_num [zeroEd, INTMAX]⟩
  · have hscr : unfilteredList (screenRecords 1 [rec0]) = [rec0] := by
      norm_num [unfilteredList, screenRecords, qmaxscoreOf, rec0]
    unfold predict
    rw [hscr]
    rfl

theorem pass0_qgroup_nonempty_witness :
    (pass0retention
      ⟨unfilteredList (screenRecords 1 [rec0, rec1]), [[], []], [], zeroEd, 4,
       (1 - 0) * qmaxscoreOf [rec0, rec1]⟩
      (pass0All
        ⟨unfilteredList (screenRecords 1 [rec0, rec1]), [[], []], [], zeroEd, 4,
         (1 - 0) * qmaxscoreOf [rec0, rec1]⟩)).1 ≠ [] := by
  apply pass0_qgroup_nonempty _ 1 0 [rec0, rec1] rfl rfl (by norm_num) (le_refl 1)
    (le_refl 0) (by norm_num)
  · intro r hr
    rcases List.mem_cons.mp hr with h | h
    · subst h; norm_num [rec0]
    · rcases List.mem_cons.mp h with h2 | h2
      · subst h2; norm_num [rec1, rec0]
      · simp at h2
  · exact fun a b => ⟨le_refl 0, by norm_num [zeroEd, INTMAX]⟩
  · have hscr : unfilteredList (screenRecords 1 [rec0, rec1]) = [rec0, rec1] := by
      norm_num [unfilteredList, screenRecords, qmaxscoreOf, rec0, rec1]
    rw [hscr]
    simp

theorem setRankDistances_canonical_depth_witness :
    normalizedDepth (deleteUnmarkedNodes defaultRanks
      ⟨[[], [0], [0, 0]],
       fun t => if t = [0] then some ("superkingdom")
         else if t = [0, 0] then some ("phylum") else none⟩) [0, 0] = 2 := by
  apply setRankDistances_canonical_depth _ _ ("phylum") 2
  · simp [deleteUnmarkedNodes, defaultRanks]
  · rfl
  · rfl

theorem screen_monotone_witness :
    ((screenRecords (1 / 2) [rec0]).getD 0 default).filtered = false := by
  apply screen_monotone (1 / 2) 1 [rec0] 0 (by norm_num) (by norm_num) (le_refl 1)
  have hscr : screenRecords 1 [rec0] = [rec0] := by
    norm_num [screenRecords, qmaxscoreOf, rec0]
  rw [hscr]
  rfl

theorem tokenizeSingleCharDelim_tokens_witness :
    tokenizeSingleCharDelim ['a', 'b'] [','] 0 false = [['a', 'b'], []] :=
  tokenizeSingleCharDelim_tokens.2.2 ['a', 'b'] [','] false (by decide) (by decide)
